import Mathlib

/-!
Verification model of the ScyllaDB compaction engine sources.

The definitions below are a shallow embedding of the code in
`tombstone_gc.cc`, `replica/database.cc` and (where the implementation is
not part of the source tree, only its tests and callers) of the behaviour
the specification describes for the compaction strategies, the merge
executor and the scrub/segregate path.  Machine clock values are modelled
as mathematical integers clamped to the int64 clock range.
-/

/-- Clock model: a `gc_clock::time_point` is an integer count of seconds;
`tpMin` and `tpMax` stand for `time_point::min()` and `time_point::max()`
of the int64 clock representation. -/
def tpMin : Int := -(2 ^ 63)

/-- Upper bound of the clock representation, `time_point::max()`. -/
def tpMax : Int := 2 ^ 63 - 1

/-- Modelled from the spec: `saturating_subtract` (declared in
`gc_clock.hh`, body not in the source tree) - clock subtraction that
saturates at the clock bounds instead of overflowing; the spec describes
`gc_before = now - gc_grace_seconds` with `-infinity` (`tpMin`) as the
never-purge value. -/
def saturating_subtract (t d : Int) : Int :=
  max tpMin (min tpMax (t - d))

/-- One node of the `boost::icl::interval_map` held by
`repair_history_map` (tombstone_gc.cc): the closed token interval
`[lo, hi]` is mapped to the repair timestamp `ts`.  Tokens are modelled
as integers. -/
structure mapEntry where
  lo : Int
  hi : Int
  ts : Int
deriving DecidableEq, Repr

/-- The `boost::icl` interval-map addition `map += (interval, time)` with
the `inplace_max` combiner, as used by `update_repair_time`: every token
in `[L, R]` ends up mapped to the max of its old value and `t`; tokens
outside `[L, R]` keep their old value.  Stored entries are split at the
boundaries of the added interval. -/
def addInterval (t : Int) : List mapEntry → Int → Int → List mapEntry
  | [], L, R => if L ≤ R then [⟨L, R, t⟩] else []
  | e :: rest, L, R =>
    if L ≤ R then
      if e.hi < L then e :: addInterval t rest L R
      else if R < e.lo then ⟨L, R, t⟩ :: e :: rest
      else
        (if e.lo < L then [⟨e.lo, L - 1, e.ts⟩] else [])
          ++ (if L < e.lo then [⟨L, e.lo - 1, t⟩] else [])
          ++ [⟨max L e.lo, min R e.hi, max e.ts t⟩]
          ++ (if R < e.hi then ⟨R + 1, e.hi, e.ts⟩ :: rest
              else addInterval t rest (e.hi + 1) R)
    else e :: rest

/-- `update_repair_time` (tombstone_gc.cc:168-171): an idempotent
max-merge of `(range, repair_time)` into the per-table repair-history
interval map.  The thread-local lookup of the per-table map by table UUID
is made explicit by passing the map. -/
def update_repair_time (m : List mapEntry) (L R t : Int) : List mapEntry :=
  addInterval t m L R

/-- `map.find(token)` on the interval map: the value of the entry whose
interval holds the token, if any. -/
def mapFind (m : List mapEntry) (tok : Int) : Option Int :=
  match m.find? (fun e => decide (e.lo ≤ tok) && decide (tok ≤ e.hi)) with
  | some e => some e.ts
  | none => none

/-- Well-formedness of an interval-map representation, with all entries
lying at or above `b`: intervals are nonempty, sorted and disjoint. -/
def sortedFromB : Int → List mapEntry → Bool
  | _, [] => true
  | b, e :: rest =>
    decide (b ≤ e.lo) && decide (e.lo ≤ e.hi) && sortedFromB (e.hi + 1) rest

/-- `tombstone_gc_mode` (tombstone_gc.hh / tombstone_gc.cc). -/
inductive gcMode
  | timeout
  | disabled
  | immediate
  | repair
deriving DecidableEq, Repr

/-- The slice of `schema` that `tombstone_gc.cc` consults. -/
structure schemaModel where
  mode : gcMode
  gc_grace_seconds : Int
  propagation_delay_in_seconds : Int
deriving DecidableEq, Repr

/-- `get_gc_before_for_range_result` (tombstone_gc.cc). -/
structure gcRangeResult where
  min_gc_before : Int
  max_gc_before : Int
  knows_entire_range : Bool
deriving DecidableEq, Repr

/-- Does a stored entry intersect the queried interval `[L, R]`
(`boost::icl` `equal_range` membership)? -/
def entryOverlaps (e : mapEntry) (L R : Int) : Bool :=
  decide (e.lo ≤ R) && decide (L ≤ e.hi)

/-- The entries of the interval map intersecting `[L, R]`, in storage
order - the hits of the `equal_range` loop in
`get_gc_before_for_range`. -/
def hitsIn (m : List mapEntry) (L R : Int) : List mapEntry :=
  m.filter (fun e => entryOverlaps e L R)

/-- The running minimum of the hit values, started at
`time_point::max()` exactly as the `min` local of the source loop. -/
def foldMinTs (l : List mapEntry) : Int :=
  l.foldl (fun a e => min a e.ts) tpMax

/-- The running maximum of the hit values, started at
`time_point::min()` exactly as the `max` local of the source loop. -/
def foldMaxTs (l : List mapEntry) : Int :=
  l.foldl (fun a e => max a e.ts) tpMin

/-- Does a stored entry contain the whole queried interval (the
`r.contains(range)` check of the source)? -/
def containsRange (e : mapEntry) (L R : Int) : Bool :=
  decide (e.lo ≤ L) && decide (R ≤ e.hi)

/-- `get_gc_before_for_range` (tombstone_gc.cc:75-130).  The thread-local
per-table repair-history map is passed explicitly as `m` (`none` models a
table with no map at all). -/
def get_gc_before_for_range (s : schemaModel) (m : Option (List mapEntry))
    (L R query_time : Int) : gcRangeResult :=
  match s.mode with
  | .timeout =>
    let g := saturating_subtract query_time s.gc_grace_seconds
    ⟨g, g, true⟩
  | .disabled => ⟨tpMin, tpMin, true⟩
  | .immediate => ⟨tpMax, tpMax, true⟩
  | .repair =>
    let d := s.propagation_delay_in_seconds
    match m with
    | none => ⟨tpMin, tpMin, false⟩
    | some mm =>
      match hitsIn mm L R with
      | [] => ⟨saturating_subtract tpMin d, saturating_subtract tpMin d, false⟩
      | h :: hs =>
        ⟨saturating_subtract (foldMinTs (h :: hs)) d,
         saturating_subtract (foldMaxTs (h :: hs)) d,
         decide (hs.length = 0) && containsRange h L R⟩

/-- `get_gc_before_for_key` (tombstone_gc.cc:132-166); the decorated key
is represented by its token. -/
def get_gc_before_for_key (s : schemaModel) (m : Option (List mapEntry))
    (tok query_time : Int) : Int :=
  match s.mode with
  | .timeout => saturating_subtract query_time s.gc_grace_seconds
  | .disabled => tpMin
  | .immediate => tpMax
  | .repair =>
    match m with
    | none => tpMin
    | some mm =>
      match mapFind mm tok with
      | none => tpMin
      | some ts => saturating_subtract ts s.propagation_delay_in_seconds

/-- locator::replication_strategy_type (abstract_replication_strategy.hh);
the C++ enumerator `local` is spelled `local_strategy` here because
`local` is a Lean keyword. -/
inductive rsType
  | simple
  | local_strategy
  | network_topology
  | everywhere_topology
deriving DecidableEq, Repr

/-- The slice of `replica::database` consulted by
validate_tombstone_gc_options: the cluster feature flag and, for the
table's keyspace, the replication strategy type and the effective
replication factor. -/
structure dbModel where
  cluster_supports_tombstone_gc_options : Bool
  rs_type : rsType
  replication_factor : Nat
deriving DecidableEq, Repr

/-- needs_repair_before_gc (tombstone_gc.cc:173-182). -/
def needs_repair_before_gc (db : dbModel) : Bool :=
  decide (db.rs_type ≠ rsType.local_strategy) && decide (db.replication_factor ≠ 1)

/-- validate_tombstone_gc_options (tombstone_gc.cc:184-195): a thrown
configuration_exception is modelled as an `Except.error` carrying the
message; only the mode field of the options is consulted. -/
def validate_tombstone_gc_options (options : Option gcMode) (db : dbModel) :
    Except String Unit :=
  match options with
  | none => Except.ok ()
  | some mode =>
    if db.cluster_supports_tombstone_gc_options = false then
      Except.error "tombstone_gc option not supported by the cluster"
    else if mode = gcMode.repair ∧ needs_repair_before_gc db = false then
      Except.error "tombstone_gc option with mode = repair not supported for table with RF one or local replication strategy"
    else Except.ok ()

/-- The events observable in the sequential body of database::drain
(replica/database.cc:2265-2277). -/
inductive drainEvent
  | compaction_manager_drain
  | flush (ks : String) (cf : String)
  | commitlog_shutdown
deriving DecidableEq, Repr

/-- is_system_keyspace (distributed_loader.cc:46-54): membership in the
system-keyspace set holding db::system_keyspace::NAME ("system") and
db::schema_tables::NAME ("system_schema"). -/
def is_system_keyspace (name : String) : Bool :=
  decide (name = "system") || decide (name = "system_schema")

/-- database::flush_non_system_column_families (replica/database.cc:2236):
flushes every column family whose keyspace is not a system keyspace; the
parallel_for_each is modelled as one flush event per such column family,
the phase completing before the caller resumes. -/
def flush_non_system_column_families (cfs : List (String × String)) : List drainEvent :=
  (cfs.filter (fun c => !is_system_keyspace c.1)).map (fun c => drainEvent.flush c.1 c.2)

/-- database::flush_system_column_families (replica/database.cc:2255). -/
def flush_system_column_families (cfs : List (String × String)) : List drainEvent :=
  (cfs.filter (fun c => is_system_keyspace c.1)).map (fun c => drainEvent.flush c.1 c.2)

/-- database::drain (replica/database.cc:2265-2277) as its event trace:
the sequential co_awaits stop the compaction manager, then flush the
non-system column families, then the system ones, then shut down the
commitlog (the inter-shard stop barriers do not emit events). -/
def drain (cfs : List (String × String)) : List drainEvent :=
  drainEvent.compaction_manager_drain ::
    (flush_non_system_column_families cfs ++ flush_system_column_families cfs
      ++ [drainEvent.commitlog_shutdown])

/-- An sstable as seen by size-tiered and time-window candidate selection:
its generation and its data size. -/
structure sstModel where
  gen : Nat
  size : Nat
deriving DecidableEq, Repr

/-- Modelled from the spec: the similar-size test of the size-tiered
bucket rule (spec 4.3); the exact similarity threshold is a policy
constant (spec 9), taken here as a factor of two. -/
def sizeSimilar (a b : Nat) : Bool := decide (a ≤ 2 * b) && decide (b ≤ 2 * a)

/-- Insertion into a size-sorted list, keeping arrival order on ties. -/
def insertBySize (s : sstModel) : List sstModel → List sstModel
  | [] => [s]
  | x :: xs => if s.size < x.size then s :: x :: xs else x :: insertBySize s xs

/-- Stable insertion sort by size. -/
def sortBySize (l : List sstModel) : List sstModel :=
  l.foldl (fun acc s => insertBySize s acc) []

/-- Modelled from the spec: grouping of a size-sorted candidate list into
similar-size buckets (spec 4.3, size-tiered strategy; the strategy
implementation is not under src/, only its tests). -/
def sizeBuckets : List sstModel → List (List sstModel)
  | [] => []
  | s :: rest =>
    (s :: rest.takeWhile (fun x => sizeSimilar s.size x.size))
      :: sizeBuckets (rest.dropWhile (fun x => sizeSimilar s.size x.size))
termination_by l => l.length
decreasing_by
  simp only [List.length_cons]
  exact Nat.lt_succ_of_le (List.dropWhile_sublist _).length_le

/-- Modelled from the spec: most_interesting_bucket - the first bucket
with at least min_threshold members is selected and the job is capped at
max_threshold members (spec 4.3 and the candidate-caps property of
spec 8). -/
def most_interesting_bucket (minT maxT : Nat) (bs : List (List sstModel)) :
    List sstModel :=
  match bs.find? (fun bkt => decide (minT ≤ bkt.length)) with
  | some bkt => bkt.take maxT
  | none => []

/-- Modelled from the spec: size-tiered get_sstables_for_compaction
(spec 4.3): sort the pool by size, bucket it, pick an eligible bucket,
cap the job at max_threshold. -/
def size_tiered_get_sstables (minT maxT : Nat) (pool : List sstModel) :
    List sstModel :=
  most_interesting_bucket minT maxT (sizeBuckets (sortBySize pool))

/-- Modelled from the spec: time-window candidate selection restricted to
one older (non-current) window (spec 4.3): a window never yet collapsed
to a single sstable is merged whole (it needs at least two sstables,
capped at max_threshold); once collapsed, the window is handled in
size-tiered mode only. -/
def twcs_older_window_candidates (collapsed : Bool) (minT maxT : Nat)
    (bucket : List sstModel) : List sstModel :=
  if collapsed then size_tiered_get_sstables minT maxT bucket
  else if 2 ≤ bucket.length then bucket.take maxT else []

/-- An sstable as seen by the leveled manifest: generation, level, data
size and first/last key (keys modelled as integers). -/
structure lvlSst where
  gen : Nat
  level : Nat
  size : Nat
  first : Int
  last : Int
deriving DecidableEq, Repr

/-- Key-range overlap of two sstables. -/
def lvlOverlap (a b : lvlSst) : Bool :=
  decide (a.first ≤ b.last) && decide (b.first ≤ a.last)

/-- The sstables of one level. -/
def levelOf (l : List lvlSst) (n : Nat) : List lvlSst :=
  l.filter (fun s => decide (s.level = n))

/-- A compaction candidate descriptor: input sstables and target level. -/
structure candidateDescriptor where
  sstables : List lvlSst
  level : Nat
deriving DecidableEq, Repr

def totalBytes (l : List lvlSst) : Nat := (l.map (fun s => s.size)).sum

/-- max_bytes_for_level (spec 4.3): 10^(L-1) times the max sstable size. -/
def levelTargetBytes (maxSstableSize L : Nat) : Nat := 10 ^ (L - 1) * maxSstableSize

/-- Modelled from the spec: leveled candidate selection
(leveled_manifest::get_compaction_candidates is not under src/, only its
tests; spec 4.3).  A non-empty level 0 is promoted whole, together with
every overlapping level-1 sstable, to target level 1.  With level 0 empty,
the first deeper level at or above its target size contributes its first
sstable plus the overlapping closure in the next level.  The round-robin
cursor and the starvation counter are per-table state irrelevant to the
level-0 path and are not modelled. -/
def leveled_get_candidates (maxSstableSize : Nat) (l : List lvlSst) :
    candidateDescriptor :=
  let l0 := levelOf l 0
  if l0.isEmpty then
    match (List.range 8).find? (fun k =>
        decide (levelTargetBytes maxSstableSize (k + 1) ≤ totalBytes (levelOf l (k + 1)))
          && decide (totalBytes (levelOf l (k + 1)) ≠ 0)) with
    | some k =>
      match levelOf l (k + 1) with
      | [] => ⟨[], 0⟩
      | s :: _ => ⟨s :: (levelOf l (k + 2)).filter (fun x => lvlOverlap s x), k + 2⟩
    | none => ⟨[], 0⟩
  else
    ⟨l0 ++ (levelOf l 1).filter (fun x => l0.any (fun s => lvlOverlap s x)), 1⟩

/-- A partition as the merge executor sees it: the write timestamps of its
live cells and an optional partition tombstone (write timestamp, deletion
time). -/
structure partitionData where
  cells : List Int
  tomb : Option (Int × Int)
deriving DecidableEq, Repr

/-- The logical content of one sstable: partition key to data (keys
modelled as naturals in token order). -/
abbrev sstContent := List (Nat × partitionData)

/-- The partition stored under key k, if any. -/
def lookupKey (sst : sstContent) (k : Nat) : Option partitionData :=
  (sst.find? (fun p => decide (p.1 = k))).map (fun p => p.2)

/-- Modelled from the spec: tombstone reconciliation (spec 4.4, merge
rules 1 and 4): the higher write timestamp wins, equal timestamps compare
raw deletion time. -/
def tombMerge : Option (Int × Int) → Option (Int × Int) → Option (Int × Int)
  | none, t => t
  | some t, none => some t
  | some (t1, d1), some (t2, d2) =>
    if t1 < t2 ∨ (t1 = t2 ∧ d1 < d2) then some (t2, d2) else some (t1, d1)

/-- Merge the copies of partition k found across the input sstables. -/
def mergePartitions (ssts : List sstContent) (k : Nat) : partitionData :=
  ssts.foldl (fun acc sst =>
    match lookupKey sst k with
    | none => acc
    | some p => ⟨acc.cells ++ p.cells, tombMerge acc.tomb p.tomb⟩) ⟨[], none⟩

def insertNat (n : Nat) : List Nat → List Nat
  | [] => [n]
  | x :: xs => if n < x then n :: x :: xs else x :: insertNat n xs

def sortNat (l : List Nat) : List Nat := l.foldl (fun acc n => insertNat n acc) []

/-- The partition keys present in the inputs, deduplicated and in key
order. -/
def allKeys (ssts : List sstContent) : List Nat :=
  sortNat ((ssts.foldl (fun acc sst => acc ++ sst.map (fun p => p.1)) []).dedup)

/-- Modelled from the spec: per-partition purge (spec 4.4 and 8): cells
whose write timestamp is at most the partition tombstone's timestamp are
shadowed and dropped (the model compacts the full sstable set, so no data
outside the inputs can be resurrected), and the tombstone itself is
dropped exactly when its deletion time is at most gc_before. -/
def purgePartition (gcBefore : Int) (p : partitionData) : partitionData :=
  let live := match p.tomb with
    | none => p.cells
    | some (ts, _) => p.cells.filter (fun c => decide (ts < c))
  let keptTomb := match p.tomb with
    | none => none
    | some (ts, dtime) => if dtime ≤ gcBefore then none else some (ts, dtime)
  ⟨live, keptTomb⟩

/-- Modelled from the spec: the compaction merge executor over the full
input set (compaction.cc is not under src/, only its tests; spec 4.4):
merge the inputs partition by partition in key order, apply tombstone
shadowing and purging, and omit partitions left empty. -/
def compact_sstables (ssts : List sstContent) (gcBefore : Int) : sstContent :=
  (allKeys ssts).filterMap (fun k =>
    let p := purgePartition gcBefore (mergePartitions ssts k)
    if p.cells.isEmpty && p.tomb.isNone then none else some (k, p))

/-- Can fragment x extend this (reversed, newest-first) stream in strictly
ascending position order? -/
def canAppend (x : Int) : List Int → Bool
  | [] => true
  | h :: _ => decide (h < x)

/-- Modelled from the spec: route one fragment to the first output stream
it extends in strictly ascending order, opening a new stream when none
fits (spec 4.4, segregation; streams are kept reversed). -/
def placeFrag (x : Int) : List (List Int) → List (List Int)
  | [] => [[x]]
  | s :: rest => if canAppend x s then (x :: s) :: rest else s :: placeFrag x rest

def segregateRev (l : List Int) : List (List Int) :=
  l.foldl (fun st x => placeFrag x st) []

/-- Modelled from the spec: segregate-mode scrub
(mutation_writer::segregate_by_partition is not under src/, only its
tests; spec 4.4): split the input fragment stream into output streams,
each strictly ascending; a mutation fragment is identified with its
position in the total order on (partition key, fragment kind, clustering
position). -/
def segregate (l : List Int) : List (List Int) :=
  (segregateRev l).map List.reverse

/-- The combining reader over the output streams: an n-way ordered merge
realised as a fold of binary ordered merges. -/
def combineAll (ls : List (List Int)) : List Int :=
  ls.foldl (fun acc s => List.merge acc s (fun a b => decide (a ≤ b))) []

theorem addInterval_nop (t : Int) (m : List mapEntry) (L R : Int) (h : R < L) :
    addInterval t m L R = m := by
  cases m <;> simp [addInterval, not_le.2 h]

theorem addInterval_cons_low (t : Int) (e : mapEntry) (l : List mapEntry)
    (L R : Int) (hLR : L ≤ R) (h : e.hi < L) :
    addInterval t (e :: l) L R = e :: addInterval t l L R := by
  simp [addInterval, hLR, h]

theorem addInterval_cons_low' (t a b v : Int) (l : List mapEntry)
    (L R : Int) (hLR : L ≤ R) (h : b < L) :
    addInterval t (⟨a, b, v⟩ :: l) L R = ⟨a, b, v⟩ :: addInterval t l L R :=
  addInterval_cons_low t ⟨a, b, v⟩ l L R hLR h

theorem addInterval_cons_covered (t a b v : Int) (l : List mapEntry) (R : Int)
    (hab : a ≤ b) (hbR : b ≤ R) (htv : t ≤ v) :
    addInterval t (⟨a, b, v⟩ :: l) a R = ⟨a, b, v⟩ :: addInterval t l (b + 1) R := by
  have hLR : a ≤ R := le_trans hab hbR
  have h1 : ¬ b < a := not_lt.2 hab
  have h2 : ¬ R < a := not_lt.2 hLR
  have h3 : ¬ a < a := lt_irrefl a
  have h4 : ¬ R < b := not_lt.2 hbR
  simp only [addInterval, if_pos hLR, if_neg h1, if_neg h2, if_neg h3, if_neg h4,
    List.nil_append, List.singleton_append, List.cons_append]
  rw [max_self, min_eq_right hbR, max_eq_left htv]

theorem addInterval_idem (t : Int) (m : List mapEntry) (L R b : Int)
    (hs : sortedFromB b m = true) :
    addInterval t (addInterval t m L R) L R = addInterval t m L R := by
  induction m, L, R using addInterval.induct t generalizing b with
  | case1 L R hLR =>
    have hinner : addInterval t [] L R = [⟨L, R, t⟩] := by
      simp [addInterval, hLR]
    rw [hinner, addInterval_cons_covered t L R t [] R hLR (le_refl R) (le_refl t),
      addInterval_nop t [] (R + 1) R (by omega)]
  | case2 L R hLR =>
    rw [addInterval_nop t [] L R (by omega), addInterval_nop t [] L R (by omega)]
  | case3 e rest L R hLR h1 ih =>
    simp only [sortedFromB, Bool.and_eq_true, decide_eq_true_eq] at hs
    obtain ⟨⟨hble, hlohi⟩, hrest⟩ := hs
    rw [addInterval_cons_low t e rest L R hLR h1,
      addInterval_cons_low t e _ L R hLR h1, ih (e.hi + 1) hrest]
  | case4 e rest L R hLR h1 h2 =>
    have hinner : addInterval t (e :: rest) L R = ⟨L, R, t⟩ :: e :: rest := by
      simp only [addInterval, if_pos hLR, if_neg h1, if_pos h2]
    rw [hinner, addInterval_cons_covered t L R t (e :: rest) R hLR (le_refl R) (le_refl t),
      addInterval_nop t (e :: rest) (R + 1) R (by omega)]
  | case5 e rest L R hLR h1 h2 ih =>
    simp only [sortedFromB, Bool.and_eq_true, decide_eq_true_eq] at hs
    obtain ⟨⟨hble, hlohi⟩, hrest⟩ := hs
    simp only [addInterval, if_pos hLR, if_neg h1, if_neg h2]
    rcases lt_trichotomy e.lo L with hA | hC | hB
    · -- left part of the entry survives below L
      rw [if_pos hA, if_neg (show ¬ L < e.lo by omega), max_eq_left (by omega)]
      by_cases hRe : R < e.hi
      · rw [if_pos hRe, min_eq_left (by omega)]
        simp only [List.cons_append, List.nil_append, List.singleton_append]
        rw [addInterval_cons_low' t e.lo (L - 1) e.ts _ L R hLR (by omega),
          addInterval_cons_covered t L R (max e.ts t) _ R hLR (le_refl R) (le_max_right _ _),
          addInterval_nop t _ (R + 1) R (by omega)]
      · rw [if_neg hRe, min_eq_right (by omega)]
        simp only [List.cons_append, List.nil_append, List.singleton_append]
        rw [addInterval_cons_low' t e.lo (L - 1) e.ts _ L R hLR (by omega),
          addInterval_cons_covered t L e.hi (max e.ts t) _ R (by omega) (by omega)
            (le_max_right _ _), ih (e.hi + 1) hrest]
    · -- entry starts exactly at L
      rw [if_neg (show ¬ e.lo < L by omega), if_neg (show ¬ L < e.lo by omega),
        max_eq_left (by omega)]
      by_cases hRe : R < e.hi
      · rw [if_pos hRe, min_eq_left (by omega)]
        simp only [List.nil_append, List.singleton_append]
        rw [addInterval_cons_covered t L R (max e.ts t) _ R hLR (le_refl R) (le_max_right _ _),
          addInterval_nop t _ (R + 1) R (by omega)]
      · rw [if_neg hRe, min_eq_right (by omega)]
        simp only [List.nil_append, List.singleton_append]
        rw [addInterval_cons_covered t L e.hi (max e.ts t) _ R (by omega) (by omega)
            (le_max_right _ _), ih (e.hi + 1) hrest]
    · -- a gap [L, e.lo-1] is filled with t
      rw [if_neg (show ¬ e.lo < L by omega), if_pos hB, max_eq_right (by omega)]
      by_cases hRe : R < e.hi
      · rw [if_pos hRe, min_eq_left (by omega)]
        simp only [List.cons_append, List.nil_append, List.singleton_append]
        rw [addInterval_cons_covered t L (e.lo - 1) t _ R (by omega) (by omega) (le_refl t),
          show (e.lo - 1 + 1 : Int) = e.lo by omega,
          addInterval_cons_covered t e.lo R (max e.ts t) _ R (by omega) (le_refl R)
            (le_max_right _ _),
          addInterval_nop t _ (R + 1) R (by omega)]
      · rw [if_neg hRe, min_eq_right (by omega)]
        simp only [List.cons_append, List.nil_append, List.singleton_append]
        rw [addInterval_cons_covered t L (e.lo - 1) t _ R (by omega) (by omega) (le_refl t),
          show (e.lo - 1 + 1 : Int) = e.lo by omega,
          addInterval_cons_covered t e.lo e.hi (max e.ts t) _ R (by omega) (by omega)
            (le_max_right _ _), ih (e.hi + 1) hrest]
  | case6 e rest L R hLR =>
    rw [addInterval_nop t _ L R (by omega), addInterval_nop t _ L R (by omega)]

theorem mapFind_cons (x : mapEntry) (l : List mapEntry) (tok : Int) :
    mapFind (x :: l) tok =
      if x.lo ≤ tok ∧ tok ≤ x.hi then some x.ts else mapFind l tok := by
  simp only [mapFind, List.find?]
  by_cases h1 : x.lo ≤ tok <;> by_cases h2 : tok ≤ x.hi <;> simp [h1, h2]

theorem mapFind_cons' (a c v : Int) (l : List mapEntry) (tok : Int) :
    mapFind (⟨a, c, v⟩ :: l) tok =
      if a ≤ tok ∧ tok ≤ c then some v else mapFind l tok := by
  rw [mapFind_cons]

theorem mapFind_bound (m : List mapEntry) (b tok : Int)
    (hs : sortedFromB b m = true) (h : tok < b) : mapFind m tok = none := by
  induction m generalizing b with
  | nil => rfl
  | cons e rest ih =>
    simp only [sortedFromB, Bool.and_eq_true, decide_eq_true_eq] at hs
    obtain ⟨⟨h1, h2⟩, h3⟩ := hs
    rw [mapFind_cons, if_neg (by omega)]
    exact ih (e.hi + 1) h3 (by omega)

theorem mapFind_some_ge (m : List mapEntry) (b tok v : Int)
    (hs : sortedFromB b m = true) (h : mapFind m tok = some v) : b ≤ tok := by
  by_contra hlt
  rw [mapFind_bound m b tok hs (by omega)] at h
  exact Option.noConfusion h

theorem mapFind_addInterval (t : Int) (m : List mapEntry) (L R b tok : Int)
    (hs : sortedFromB b m = true) :
    mapFind (addInterval t m L R) tok =
      if L ≤ tok ∧ tok ≤ R then some (max ((mapFind m tok).getD t) t)
      else mapFind m tok := by
  induction m, L, R using addInterval.induct t generalizing b with
  | case1 L R hLR =>
    rw [show addInterval t [] L R = [⟨L, R, t⟩] from by simp [addInterval, hLR],
      mapFind_cons']
    by_cases h : L ≤ tok ∧ tok ≤ R
    · rw [if_pos h, if_pos h]
      simp [mapFind, List.find?]
    · rw [if_neg h, if_neg h]
  | case2 L R hLR =>
    rw [addInterval_nop t [] L R (by omega), if_neg (by omega)]
  | case3 e rest L R hLR h1 ih =>
    simp only [sortedFromB, Bool.and_eq_true, decide_eq_true_eq] at hs
    obtain ⟨⟨hb1, hb2⟩, hrest⟩ := hs
    rw [addInterval_cons_low t e rest L R hLR h1, mapFind_cons,
      ih (e.hi + 1) hrest, mapFind_cons]
    split_ifs <;> first | rfl | omega
  | case4 e rest L R hLR h1 h2 =>
    simp only [sortedFromB, Bool.and_eq_true, decide_eq_true_eq] at hs
    obtain ⟨⟨hb1, hb2⟩, hrest⟩ := hs
    rw [show addInterval t (e :: rest) L R = ⟨L, R, t⟩ :: e :: rest from by
        simp only [addInterval, if_pos hLR, if_neg h1, if_pos h2],
      mapFind_cons', mapFind_cons]
    split_ifs <;>
      first
        | rfl
        | omega
        | (rw [mapFind_bound rest (e.hi + 1) tok hrest (by omega)]; simp)
  | case5 e rest L R hLR h1 h2 ih =>
    simp only [sortedFromB, Bool.and_eq_true, decide_eq_true_eq] at hs
    obtain ⟨⟨hb1, hb2⟩, hrest⟩ := hs
    simp only [addInterval, if_pos hLR, if_neg h1, if_neg h2]
    rcases lt_trichotomy e.lo L with hA | hC | hB
    · rw [if_pos hA, if_neg (show ¬ L < e.lo by omega), max_eq_left (by omega)]
      by_cases hRe : R < e.hi
      · rw [if_pos hRe, min_eq_left (by omega)]
        simp only [List.cons_append, List.nil_append, List.singleton_append]
        rw [mapFind_cons', mapFind_cons', mapFind_cons', mapFind_cons]
        split_ifs <;> first | rfl | omega
      · rw [if_neg hRe, min_eq_right (by omega)]
        simp only [List.cons_append, List.nil_append, List.singleton_append]
        rw [mapFind_cons', mapFind_cons', ih (e.hi + 1) hrest, mapFind_cons]
        split_ifs <;> first | rfl | omega
    · rw [if_neg (show ¬ e.lo < L by omega), if_neg (show ¬ L < e.lo by omega),
        max_eq_left (by omega)]
      by_cases hRe : R < e.hi
      · rw [if_pos hRe, min_eq_left (by omega)]
        simp only [List.nil_append, List.singleton_append]
        rw [mapFind_cons', mapFind_cons', mapFind_cons]
        split_ifs <;> first | rfl | omega
      · rw [if_neg hRe, min_eq_right (by omega)]
        simp only [List.nil_append, List.singleton_append]
        rw [mapFind_cons', ih (e.hi + 1) hrest, mapFind_cons]
        split_ifs <;> first | rfl | omega
    · rw [if_neg (show ¬ e.lo < L by omega), if_pos hB, max_eq_right (by omega)]
      by_cases hRe : R < e.hi
      · rw [if_pos hRe, min_eq_left (by omega)]
        simp only [List.cons_append, List.nil_append, List.singleton_append]
        rw [mapFind_cons', mapFind_cons', mapFind_cons', mapFind_cons]
        split_ifs <;>
          first
            | rfl
            | omega
            | (rw [mapFind_bound rest (e.hi + 1) tok hrest (by omega)]; simp)
      · rw [if_neg hRe, min_eq_right (by omega)]
        simp only [List.cons_append, List.nil_append, List.singleton_append]
        rw [mapFind_cons', mapFind_cons', ih (e.hi + 1) hrest, mapFind_cons]
        split_ifs <;>
          first
            | rfl
            | omega
            | (rw [mapFind_bound rest (e.hi + 1) tok hrest (by omega)]; simp)
  | case6 e rest L R hLR =>
    rw [addInterval_nop t _ L R (by omega), if_neg (by omega)]

/-- C2: in repair tombstone-gc mode, a token range or key with no entry in
the table's repair-history interval map - including a table without any
map - yields gc_before equal to the minimum time point: absence of repair
information never permits purging. -/
theorem repair_no_info_never_purges
    (s : schemaModel) (m : Option (List mapEntry)) (L R tok qt : Int)
    (hmode : s.mode = .repair)
    (hdelay : 0 ≤ s.propagation_delay_in_seconds)
    (hrange : ∀ mm, m = some mm → hitsIn mm L R = [])
    (hkey : ∀ mm, m = some mm → mapFind mm tok = none) :
    get_gc_before_for_range s m L R qt = ⟨tpMin, tpMin, false⟩ ∧
    get_gc_before_for_key s m tok qt = tpMin := by
  have hsat : saturating_subtract tpMin s.propagation_delay_in_seconds = tpMin := by
    simp only [saturating_subtract, tpMin, tpMax]
    omega
  cases m with
  | none =>
    constructor
    · simp [get_gc_before_for_range, hmode]
    · simp [get_gc_before_for_key, hmode]
  | some mm =>
    have h1 := hrange mm rfl
    have h2 := hkey mm rfl
    constructor
    · simp [get_gc_before_for_range, hmode, h1, hsat]
    · simp [get_gc_before_for_key, hmode, h2]

/-- Witness for `repair_no_info_never_purges` at a concrete instance: a
map holding only tokens 0..1, queried for range 5..10 and token 7. -/
theorem repair_no_info_never_purges_witness :
    get_gc_before_for_range ⟨.repair, 0, 3600⟩ (some [⟨0, 1, 100⟩]) 5 10 0
        = ⟨tpMin, tpMin, false⟩ ∧
    get_gc_before_for_key ⟨.repair, 0, 3600⟩ (some [⟨0, 1, 100⟩]) 7 0 = tpMin :=
  repair_no_info_never_purges ⟨.repair, 0, 3600⟩ (some [⟨0, 1, 100⟩]) 5 10 7 0
    rfl (by decide) (by intro mm h; cases h; decide) (by intro mm h; cases h; decide)

/-- C4: update_repair_time is an idempotent max-merge into the repair
history interval map: applying it twice with the same range and timestamp
equals applying it once; for every token inside the range the recorded
time becomes the max of its previous value and the new timestamp while
tokens outside keep their value; and a token's recorded repair time never
decreases. -/
theorem update_repair_time_max_merge (m : List mapEntry) (L R t b tok : Int)
    (hs : sortedFromB b m = true) :
    update_repair_time (update_repair_time m L R t) L R t
        = update_repair_time m L R t ∧
    mapFind (update_repair_time m L R t) tok
        = (if L ≤ tok ∧ tok ≤ R then some (max ((mapFind m tok).getD t) t)
           else mapFind m tok) ∧
    (∀ v, mapFind m tok = some v →
      ∃ w, mapFind (update_repair_time m L R t) tok = some w ∧ v ≤ w) := by
  refine ⟨addInterval_idem t m L R b hs, mapFind_addInterval t m L R b tok hs, ?_⟩
  intro v hv
  rw [update_repair_time, mapFind_addInterval t m L R b tok hs, hv]
  by_cases h : L ≤ tok ∧ tok ≤ R
  · rw [if_pos h]
    exact ⟨max v t, by simp, le_max_left v t⟩
  · rw [if_neg h]
    exact ⟨v, rfl, le_refl v⟩

/-- Witness for `update_repair_time_max_merge`: a concrete two-entry map,
updated over the range 3..8 with timestamp 20, observed at token 4. -/
theorem update_repair_time_max_merge_witness :
    update_repair_time (update_repair_time [⟨0, 5, 10⟩] 3 8 20) 3 8 20
        = update_repair_time [⟨0, 5, 10⟩] 3 8 20 ∧
    mapFind (update_repair_time [⟨0, 5, 10⟩] 3 8 20) 4
        = (if (3 : Int) ≤ 4 ∧ (4 : Int) ≤ 8
           then some (max ((mapFind [⟨0, 5, 10⟩] 4).getD 20) 20)
           else mapFind [⟨0, 5, 10⟩] 4) ∧
    (∀ v, mapFind [⟨0, 5, 10⟩] 4 = some v →
      ∃ w, mapFind (update_repair_time [⟨0, 5, 10⟩] 3 8 20) 4 = some w ∧ v ≤ w) :=
  update_repair_time_max_merge [⟨0, 5, 10⟩] 3 8 20 0 4 (by decide)

theorem foldl_min_le_init (l : List mapEntry) (init : Int) :
    l.foldl (fun a x => min a x.ts) init ≤ init := by
  induction l generalizing init with
  | nil => exact le_refl init
  | cons x xs ih => exact le_trans (ih (min init x.ts)) (min_le_left _ _)

theorem le_foldl_max_init (l : List mapEntry) (init : Int) :
    init ≤ l.foldl (fun a x => max a x.ts) init := by
  induction l generalizing init with
  | nil => exact le_refl init
  | cons x xs ih => exact le_trans (le_max_left _ _) (ih (max init x.ts))

theorem foldl_min_le_mem (l : List mapEntry) (e : mapEntry) :
    ∀ init, e ∈ l → l.foldl (fun a x => min a x.ts) init ≤ e.ts := by
  induction l with
  | nil => intro init he; cases he
  | cons x xs ih =>
    intro init he
    rcases List.mem_cons.1 he with rfl | hxs
    · exact le_trans (foldl_min_le_init xs (min init e.ts)) (min_le_right _ _)
    · exact ih (min init x.ts) hxs

theorem le_foldl_max_mem (l : List mapEntry) (e : mapEntry) :
    ∀ init, e ∈ l → e.ts ≤ l.foldl (fun a x => max a x.ts) init := by
  induction l with
  | nil => intro init he; cases he
  | cons x xs ih =>
    intro init he
    rcases List.mem_cons.1 he with rfl | hxs
    · exact le_trans (le_max_right _ _) (le_foldl_max_init xs (max init e.ts))
    · exact ih (max init x.ts) hxs

theorem foldMinTs_le_mem (l : List mapEntry) (e : mapEntry) (he : e ∈ l) :
    foldMinTs l ≤ e.ts :=
  foldl_min_le_mem l e tpMax he

theorem le_foldMaxTs_mem (l : List mapEntry) (e : mapEntry) (he : e ∈ l) :
    e.ts ≤ foldMaxTs l :=
  le_foldl_max_mem l e tpMin he

theorem saturating_subtract_mono (a c d : Int) (h : a ≤ c) :
    saturating_subtract a d ≤ saturating_subtract c d := by
  unfold saturating_subtract
  exact max_le_max (le_refl _) (min_le_min (le_refl _) (by omega))

theorem mapFind_some_elim (mm : List mapEntry) (tok v : Int)
    (h : mapFind mm tok = some v) :
    ∃ e, e ∈ mm ∧ e.lo ≤ tok ∧ tok ≤ e.hi ∧ e.ts = v := by
  unfold mapFind at h
  cases hf : mm.find? (fun e => decide (e.lo ≤ tok) && decide (tok ≤ e.hi)) with
  | none => rw [hf] at h; exact absurd h (by simp)
  | some e =>
    rw [hf] at h
    have hmem := List.mem_of_find?_eq_some hf
    have hpred := List.find?_some hf
    simp only [Bool.and_eq_true, decide_eq_true_eq] at hpred
    exact ⟨e, hmem, hpred.1, hpred.2, by injection h⟩

theorem mapFind_none_elim (mm : List mapEntry) (tok : Int)
    (h : mapFind mm tok = none) :
    ∀ e ∈ mm, ¬ (e.lo ≤ tok ∧ tok ≤ e.hi) := by
  intro e he hcon
  unfold mapFind at h
  cases hf : mm.find? (fun e => decide (e.lo ≤ tok) && decide (tok ≤ e.hi)) with
  | some x => rw [hf] at h; exact Option.noConfusion h
  | none =>
    have := List.find?_eq_none.1 hf e he
    simp [hcon.1, hcon.2] at this

/-- Counterexample to C10 as frozen: in repair mode, with a repair-history
map covering only tokens 0..1 at repair time 100, querying the range 0..10
gives min_gc_before = max_gc_before = 100, but the key-level gc_before of
token 5 (inside the range, outside the map entry) is the minimum time
point, strictly below min_gc_before. -/
theorem gc_range_key_envelope_cex :
    ¬ ((get_gc_before_for_range ⟨.repair, 0, 0⟩ (some [⟨0, 1, 100⟩]) 0 10 0).min_gc_before
          ≤ get_gc_before_for_key ⟨.repair, 0, 0⟩ (some [⟨0, 1, 100⟩]) 5 0 ∧
        get_gc_before_for_key ⟨.repair, 0, 0⟩ (some [⟨0, 1, 100⟩]) 5 0
          ≤ (get_gc_before_for_range ⟨.repair, 0, 0⟩
              (some [⟨0, 1, 100⟩]) 0 10 0).max_gc_before) := by
  decide

/-- C10 amended: min_gc_before is at most max_gc_before; the key-level
gc_before of any key in the range is at most max_gc_before; when
knows_entire_range is reported the key-level result equals min_gc_before
and min_gc_before = max_gc_before; and every non-repair mode reports
knows_entire_range (so there the key result always equals the range
result).  Repair timestamps are assumed to be clock values. -/
theorem gc_range_key_envelope (s : schemaModel) (m : Option (List mapEntry))
    (L R tok qt : Int) (htokL : L ≤ tok) (htokR : tok ≤ R)
    (hts : ∀ mm, m = some mm → ∀ e ∈ mm, tpMin ≤ e.ts ∧ e.ts ≤ tpMax) :
    (get_gc_before_for_range s m L R qt).min_gc_before
        ≤ (get_gc_before_for_range s m L R qt).max_gc_before ∧
    get_gc_before_for_key s m tok qt
        ≤ (get_gc_before_for_range s m L R qt).max_gc_before ∧
    ((get_gc_before_for_range s m L R qt).knows_entire_range = true →
      get_gc_before_for_key s m tok qt
          = (get_gc_before_for_range s m L R qt).min_gc_before ∧
      (get_gc_before_for_range s m L R qt).min_gc_before
          = (get_gc_before_for_range s m L R qt).max_gc_before) ∧
    (s.mode ≠ gcMode.repair →
      (get_gc_before_for_range s m L R qt).knows_entire_range = true) := by
  obtain ⟨mo, grace, d⟩ := s
  cases mo with
  | timeout => exact ⟨le_refl _, le_refl _, fun _ => ⟨rfl, rfl⟩, fun _ => rfl⟩
  | disabled => exact ⟨le_refl _, le_refl _, fun _ => ⟨rfl, rfl⟩, fun _ => rfl⟩
  | immediate => exact ⟨le_refl _, le_refl _, fun _ => ⟨rfl, rfl⟩, fun _ => rfl⟩
  | repair =>
    cases m with
    | none =>
      refine ⟨le_refl _, le_refl _, fun hk => ?_, fun hmode => absurd rfl hmode⟩
      simp [get_gc_before_for_range] at hk
    | some mm =>
      have hbounds := hts mm rfl
      cases hh : hitsIn mm L R with
      | nil =>
        have hkey : mapFind mm tok = none := by
          cases hfind : mapFind mm tok with
          | none => rfl
          | some v =>
            obtain ⟨e, hmem, h1, h2, rfl⟩ := mapFind_some_elim mm tok v hfind
            have hein : e ∈ hitsIn mm L R := List.mem_filter.2 ⟨hmem, by
              simp only [entryOverlaps, Bool.and_eq_true, decide_eq_true_eq]
              exact ⟨by omega, by omega⟩⟩
            rw [hh] at hein
            cases hein
        have hrng : get_gc_before_for_range ⟨.repair, grace, d⟩ (some mm) L R qt
            = ⟨saturating_subtract tpMin d, saturating_subtract tpMin d, false⟩ := by
          simp only [get_gc_before_for_range, hh]
        have hkey2 : get_gc_before_for_key ⟨.repair, grace, d⟩ (some mm) tok qt
            = tpMin := by
          simp only [get_gc_before_for_key, hkey]
        rw [hrng, hkey2]
        refine ⟨le_refl _, le_max_left _ _, fun hk => ?_, fun hmode => absurd rfl hmode⟩
        simp at hk
      | cons h1 hs1 =>
        have hmemh : h1 ∈ hitsIn mm L R := by rw [hh]; exact List.mem_cons_self _ _
        have hrng : get_gc_before_for_range ⟨.repair, grace, d⟩ (some mm) L R qt
            = ⟨saturating_subtract (foldMinTs (h1 :: hs1)) d,
               saturating_subtract (foldMaxTs (h1 :: hs1)) d,
               decide (hs1.length = 0) && containsRange h1 L R⟩ := by
          simp only [get_gc_before_for_range, hh]
        rw [hrng]
        refine ⟨?_, ?_, ?_, fun hmode => absurd rfl hmode⟩
        · exact saturating_subtract_mono _ _ d
            (le_trans (foldMinTs_le_mem (h1 :: hs1) h1 (List.mem_cons_self _ _))
              (le_foldMaxTs_mem (h1 :: hs1) h1 (List.mem_cons_self _ _)))
        · cases hfind : mapFind mm tok with
          | none =>
            have hkey2 : get_gc_before_for_key ⟨.repair, grace, d⟩ (some mm) tok qt
                = tpMin := by simp only [get_gc_before_for_key, hfind]
            rw [hkey2]
            exact le_max_left _ _
          | some v =>
            have hkey2 : get_gc_before_for_key ⟨.repair, grace, d⟩ (some mm) tok qt
                = saturating_subtract v d := by simp only [get_gc_before_for_key, hfind]
            rw [hkey2]
            obtain ⟨e, hmem, he1, he2, hets⟩ := mapFind_some_elim mm tok v hfind
            have hein : e ∈ hitsIn mm L R := List.mem_filter.2 ⟨hmem, by
              simp only [entryOverlaps, Bool.and_eq_true, decide_eq_true_eq]
              exact ⟨by omega, by omega⟩⟩
            rw [hh] at hein
            refine saturating_subtract_mono _ _ d ?_
            rw [← hets]
            exact le_foldMaxTs_mem (h1 :: hs1) e hein
        · intro hknows
          simp only [Bool.and_eq_true, decide_eq_true_eq] at hknows
          obtain ⟨hlen, hcont⟩ := hknows
          have hhs_nil : hs1 = [] := List.length_eq_zero.1 hlen
          subst hhs_nil
          simp only [containsRange, Bool.and_eq_true, decide_eq_true_eq] at hcont
          have hfound : mapFind mm tok = some h1.ts := by
            cases hf : mapFind mm tok with
            | none =>
              exfalso
              exact mapFind_none_elim mm tok hf h1 (List.mem_filter.1 hmemh).1
                ⟨by omega, by omega⟩
            | some v =>
              obtain ⟨e, hmem, he1, he2, hets⟩ := mapFind_some_elim mm tok v hf
              have hein : e ∈ hitsIn mm L R := List.mem_filter.2 ⟨hmem, by
                simp only [entryOverlaps, Bool.and_eq_true, decide_eq_true_eq]
                exact ⟨by omega, by omega⟩⟩
              rw [hh] at hein
              have heq : e = h1 := by simpa using hein
              rw [← hets, heq]
          have hkey2 : get_gc_before_for_key ⟨.repair, grace, d⟩ (some mm) tok qt
              = saturating_subtract h1.ts d := by
            simp only [get_gc_before_for_key, hfound]
          have hb := hbounds h1 (List.mem_filter.1 hmemh).1
          have hmin : foldMinTs [h1] = h1.ts := by
            simp only [foldMinTs, List.foldl_cons, List.foldl_nil]
            exact min_eq_right hb.2
          have hmax : foldMaxTs [h1] = h1.ts := by
            simp only [foldMaxTs, List.foldl_cons, List.foldl_nil]
            exact max_eq_right hb.1
          rw [hkey2, hmin, hmax]
          exact ⟨rfl, rfl⟩

/-- Witness for `gc_range_key_envelope`: repair mode over a map whose
single entry covers the whole queried range. -/
theorem gc_range_key_envelope_witness :
    (get_gc_before_for_range ⟨.repair, 0, 7⟩ (some [⟨0, 20, 100⟩]) 2 10 0).min_gc_before
        ≤ (get_gc_before_for_range ⟨.repair, 0, 7⟩ (some [⟨0, 20, 100⟩]) 2 10 0).max_gc_before ∧
    get_gc_before_for_key ⟨.repair, 0, 7⟩ (some [⟨0, 20, 100⟩]) 5 0
        ≤ (get_gc_before_for_range ⟨.repair, 0, 7⟩ (some [⟨0, 20, 100⟩]) 2 10 0).max_gc_before ∧
    ((get_gc_before_for_range ⟨.repair, 0, 7⟩ (some [⟨0, 20, 100⟩]) 2 10 0).knows_entire_range = true →
      get_gc_before_for_key ⟨.repair, 0, 7⟩ (some [⟨0, 20, 100⟩]) 5 0
          = (get_gc_before_for_range ⟨.repair, 0, 7⟩ (some [⟨0, 20, 100⟩]) 2 10 0).min_gc_before ∧
      (get_gc_before_for_range ⟨.repair, 0, 7⟩ (some [⟨0, 20, 100⟩]) 2 10 0).min_gc_before
          = (get_gc_before_for_range ⟨.repair, 0, 7⟩ (some [⟨0, 20, 100⟩]) 2 10 0).max_gc_before) ∧
    ((⟨gcMode.repair, 0, 7⟩ : schemaModel).mode ≠ gcMode.repair →
      (get_gc_before_for_range ⟨.repair, 0, 7⟩ (some [⟨0, 20, 100⟩]) 2 10 0).knows_entire_range = true) :=
  gc_range_key_envelope ⟨.repair, 0, 7⟩ (some [⟨0, 20, 100⟩]) 2 10 5 0
    (by decide) (by decide) (by intro mm h; cases h; decide)

/-- C8: given cluster feature support, validate_tombstone_gc_options
throws a configuration exception exactly when repair mode is requested
for a table whose keyspace uses the local replication strategy or has
effective replication factor 1; every other mode/replication combination
validates successfully. -/
theorem validate_tombstone_gc_repair (mode : gcMode) (db : dbModel)
    (hfeat : db.cluster_supports_tombstone_gc_options = true) :
    validate_tombstone_gc_options (some mode) db = Except.ok () ↔
      ¬ (mode = gcMode.repair ∧
        (db.rs_type = rsType.local_strategy ∨ db.replication_factor = 1)) := by
  have hnr : needs_repair_before_gc db = false ↔
      (db.rs_type = rsType.local_strategy ∨ db.replication_factor = 1) := by
    simp only [needs_repair_before_gc, Bool.and_eq_false_iff, decide_eq_false_iff_not,
      not_not]
  simp only [validate_tombstone_gc_options]
  rw [if_neg (by simp [hfeat])]
  by_cases hc : mode = gcMode.repair ∧ needs_repair_before_gc db = false
  · rw [if_pos hc]
    constructor
    · intro h
      exact absurd h (by simp)
    · intro h
      exact absurd ⟨hc.1, hnr.1 hc.2⟩ h
  · rw [if_neg hc]
    constructor
    · intro _ hcon
      exact hc ⟨hcon.1, hnr.2 hcon.2⟩
    · intro _
      rfl

/-- Witness for `validate_tombstone_gc_repair`: repair mode on a local
strategy keyspace is rejected, timeout mode on a simple-strategy keyspace
passes. -/
theorem validate_tombstone_gc_repair_witness :
    validate_tombstone_gc_options (some gcMode.repair) ⟨true, rsType.local_strategy, 3⟩
        ≠ Except.ok () ∧
    validate_tombstone_gc_options (some gcMode.timeout) ⟨true, rsType.simple, 3⟩
        = Except.ok () :=
  ⟨fun h =>
      ((validate_tombstone_gc_repair gcMode.repair ⟨true, rsType.local_strategy, 3⟩ rfl).1 h)
        ⟨rfl, Or.inl rfl⟩,
    (validate_tombstone_gc_repair gcMode.timeout ⟨true, rsType.simple, 3⟩ rfl).2 (by decide)⟩

theorem mem_flush_non_system (cfs : List (String × String)) (x : drainEvent)
    (hx : x ∈ flush_non_system_column_families cfs) :
    ∃ ks cf, x = drainEvent.flush ks cf ∧ is_system_keyspace ks = false := by
  simp only [flush_non_system_column_families, List.mem_map, List.mem_filter,
    Bool.not_eq_true'] at hx
  obtain ⟨c, ⟨hmem, hsys⟩, rfl⟩ := hx
  exact ⟨c.1, c.2, rfl, hsys⟩

theorem mem_flush_system (cfs : List (String × String)) (x : drainEvent)
    (hx : x ∈ flush_system_column_families cfs) :
    ∃ ks cf, x = drainEvent.flush ks cf ∧ is_system_keyspace ks = true := by
  simp only [flush_system_column_families, List.mem_map, List.mem_filter] at hx
  obtain ⟨c, ⟨hmem, hsys⟩, rfl⟩ := hx
  exact ⟨c.1, c.2, rfl, hsys⟩

theorem drain_event_cases (cfs : List (String × String)) (i : Nat) (x : drainEvent)
    (h : (drain cfs)[i]? = some x) :
    (i = 0 ∧ x = drainEvent.compaction_manager_drain) ∨
    (1 ≤ i ∧ i < 1 + (flush_non_system_column_families cfs).length ∧
      ∃ ks cf, x = drainEvent.flush ks cf ∧ is_system_keyspace ks = false) ∨
    (1 + (flush_non_system_column_families cfs).length ≤ i ∧
      i < 1 + (flush_non_system_column_families cfs).length
          + (flush_system_column_families cfs).length ∧
      ∃ ks cf, x = drainEvent.flush ks cf ∧ is_system_keyspace ks = true) ∨
    (i = 1 + (flush_non_system_column_families cfs).length
          + (flush_system_column_families cfs).length ∧
      x = drainEvent.commitlog_shutdown) := by
  cases i with
  | zero =>
    left
    rw [drain, List.getElem?_cons_zero] at h
    exact ⟨rfl, (Option.some_injective _ h).symm⟩
  | succ n =>
    have hlen : (flush_non_system_column_families cfs
        ++ flush_system_column_families cfs).length
        = (flush_non_system_column_families cfs).length
          + (flush_system_column_families cfs).length := List.length_append _ _
    rw [drain, List.getElem?_cons_succ, List.getElem?_append] at h
    by_cases h0 : n < (flush_non_system_column_families cfs
        ++ flush_system_column_families cfs).length
    · rw [if_pos h0, List.getElem?_append] at h
      by_cases h1 : n < (flush_non_system_column_families cfs).length
      · rw [if_pos h1] at h
        right; left
        refine ⟨by omega, by omega, ?_⟩
        exact mem_flush_non_system cfs x (List.getElem?_mem h)
      · rw [if_neg h1] at h
        right; right; left
        refine ⟨by omega, by omega, ?_⟩
        exact mem_flush_system cfs x (List.getElem?_mem h)
    · rw [if_neg h0] at h
      right; right; right
      have hx : x ∈ [drainEvent.commitlog_shutdown] := List.getElem?_mem h
      have hidx : n - (flush_non_system_column_families cfs
          ++ flush_system_column_families cfs).length
          < [drainEvent.commitlog_shutdown].length := by
        by_contra hge
        rw [List.getElem?_eq_none (by omega)] at h
        exact Option.noConfusion h
      simp only [List.length_cons, List.length_nil] at hidx
      refine ⟨by omega, by simpa using hx⟩

/-- C9: the drain trace starts by stopping the compaction manager, every
non-system flush precedes every system flush, every flush precedes the
commitlog shutdown, and every column family is flushed. -/
theorem drain_flush_order (cfs : List (String × String)) :
    (drain cfs).head? = some drainEvent.compaction_manager_drain ∧
    (∀ (i j : Nat) (ks cf ks2 cf2 : String),
      (drain cfs)[i]? = some (drainEvent.flush ks cf) →
      is_system_keyspace ks = false →
      (drain cfs)[j]? = some (drainEvent.flush ks2 cf2) →
      is_system_keyspace ks2 = true → i < j) ∧
    (∀ (i j : Nat) (ks cf : String),
      (drain cfs)[i]? = some (drainEvent.flush ks cf) →
      (drain cfs)[j]? = some drainEvent.commitlog_shutdown → i < j) ∧
    (∀ c ∈ cfs, drainEvent.flush c.1 c.2 ∈ drain cfs) := by
  refine ⟨rfl, ?_, ?_, ?_⟩
  · intro i j ks cf ks2 cf2 hi hks hj hks2
    rcases drain_event_cases cfs i _ hi with ⟨_, hx⟩ | ⟨_, hlt, _⟩ |
        ⟨_, _, ks', cf', hx, hsys⟩ | ⟨_, hx⟩
    · exact absurd hx (by simp)
    · rcases drain_event_cases cfs j _ hj with ⟨_, hx⟩ | ⟨_, _, ks', cf', hx, hsys⟩ |
          ⟨hge, _, _⟩ | ⟨_, hx⟩
      · exact absurd hx (by simp)
      · cases hx
        rw [hks2] at hsys
        exact absurd hsys (by simp)
      · omega
      · omega
    · cases hx
      rw [hks] at hsys
      exact absurd hsys (by simp)
    · exact absurd hx (by simp)
  · intro i j ks cf hi hj
    rcases drain_event_cases cfs i _ hi with ⟨_, hx⟩ | ⟨_, hlt, _⟩ | ⟨_, hlt, _⟩ | ⟨_, hx⟩
    · exact absurd hx (by simp)
    · rcases drain_event_cases cfs j _ hj with ⟨_, hx⟩ | ⟨_, _, ks', cf', hx, _⟩ |
          ⟨_, _, ks', cf', hx, _⟩ | ⟨hj', _⟩
      · exact absurd hx (by simp)
      · exact absurd hx (by simp)
      · exact absurd hx (by simp)
      · omega
    · rcases drain_event_cases cfs j _ hj with ⟨_, hx⟩ | ⟨_, _, ks', cf', hx, _⟩ |
          ⟨_, _, ks', cf', hx, _⟩ | ⟨hj', _⟩
      · exact absurd hx (by simp)
      · exact absurd hx (by simp)
      · exact absurd hx (by simp)
      · omega
    · exact absurd hx (by simp)
  · intro c hc
    by_cases hcs : is_system_keyspace c.1 = true
    · have : drainEvent.flush c.1 c.2 ∈ flush_system_column_families cfs := by
        simp only [flush_system_column_families, List.mem_map, List.mem_filter]
        exact ⟨c, ⟨hc, hcs⟩, rfl⟩
      simp [drain, this]
    · have : drainEvent.flush c.1 c.2 ∈ flush_non_system_column_families cfs := by
        simp only [flush_non_system_column_families, List.mem_map, List.mem_filter,
          Bool.not_eq_true']
        exact ⟨c, ⟨hc, by simpa using hcs⟩, rfl⟩
      simp [drain, this]

/-- Witness for `drain_flush_order` on a concrete two-table database:
the manager-drain event leads, the user-table flush (index 1) precedes
the system-table flush (index 2), which precedes the commitlog shutdown
(index 3), and the user table is flushed. -/
theorem drain_flush_order_witness :
    (drain [("ks1", "t1"), ("system", "large_partitions")]).head?
        = some drainEvent.compaction_manager_drain ∧
    (1 : Nat) < 2 ∧ (2 : Nat) < 3 ∧
    drainEvent.flush "ks1" "t1"
        ∈ drain [("ks1", "t1"), ("system", "large_partitions")] := by
  refine ⟨(drain_flush_order [("ks1", "t1"), ("system", "large_partitions")]).1, ?_, ?_, ?_⟩
  · exact (drain_flush_order [("ks1", "t1"), ("system", "large_partitions")]).2.1 1 2
      "ks1" "t1" "system" "large_partitions" (by decide) (by decide) (by decide) (by decide)
  · exact (drain_flush_order [("ks1", "t1"), ("system", "large_partitions")]).2.2.1 2 3
      "system" "large_partitions" (by decide) (by decide)
  · exact (drain_flush_order [("ks1", "t1"), ("system", "large_partitions")]).2.2.2
      ("ks1", "t1") (by decide)

/-- C7: size-tiered candidate selection never returns more than
max_threshold sstables in one job, even when a bucket holds more eligible
similar-sized sstables; the cap is a deterministic truncation of the
chosen bucket. -/
theorem size_tiered_cap (minT maxT : Nat) (pool : List sstModel) :
    (size_tiered_get_sstables minT maxT pool).length ≤ maxT := by
  unfold size_tiered_get_sstables most_interesting_bucket
  cases h : (sizeBuckets (sortBySize pool)).find? (fun bkt => decide (minT ≤ bkt.length)) with
  | none => simp
  | some bkt =>
    simp only [List.length_take]
    exact min_le_left _ _

/-- C5: with exactly two overlapping level-0 sstables and nothing at any
deeper level, leveled candidate selection returns exactly those two
sstables with target level 1. -/
theorem leveled_two_l0 (maxSstableSize : Nat) (a b : lvlSst)
    (ha : a.level = 0) (hb : b.level = 0) (_hov : lvlOverlap a b = true) :
    leveled_get_candidates maxSstableSize [a, b] = ⟨[a, b], 1⟩ := by
  simp [leveled_get_candidates, levelOf, ha, hb]

/-- Witness for `leveled_two_l0`: two overlapping level-0 sstables. -/
theorem leveled_two_l0_witness :
    leveled_get_candidates 1048576 [⟨1, 0, 1048576, 0, 50⟩, ⟨2, 0, 1048576, 10, 50⟩]
        = ⟨[⟨1, 0, 1048576, 0, 50⟩, ⟨2, 0, 1048576, 10, 50⟩], 1⟩ :=
  leveled_two_l0 1048576 ⟨1, 0, 1048576, 0, 50⟩ ⟨2, 0, 1048576, 10, 50⟩ rfl rfl (by decide)

theorem insertBySize_perm (s : sstModel) (l : List sstModel) :
    List.Perm (insertBySize s l) (s :: l) := by
  induction l with
  | nil => exact List.Perm.refl _
  | cons x xs ih =>
    simp only [insertBySize]
    by_cases h : s.size < x.size
    · rw [if_pos h]
    · rw [if_neg h]
      exact (ih.cons x).trans (List.Perm.swap s x xs)

theorem sortBySize_perm (l : List sstModel) : List.Perm (sortBySize l) l := by
  suffices h : ∀ acc, List.Perm (l.foldl (fun a s => insertBySize s a) acc) (acc ++ l) by
    simpa [sortBySize] using h []
  induction l with
  | nil => intro acc; simp
  | cons x xs ih =>
    intro acc
    simp only [List.foldl_cons]
    refine (ih (insertBySize x acc)).trans ?_
    refine (List.Perm.append_right xs (insertBySize_perm x acc)).trans ?_
    exact List.perm_middle.symm

theorem sortBySize_length (l : List sstModel) : (sortBySize l).length = l.length :=
  (sortBySize_perm l).length_eq

theorem sizeBuckets_mem_length (l : List sstModel) (bkt : List sstModel)
    (h : bkt ∈ sizeBuckets l) : bkt.length ≤ l.length := by
  induction l using sizeBuckets.induct with
  | case1 => simp [sizeBuckets] at h
  | case2 s rest ih =>
    rw [sizeBuckets] at h
    rcases List.mem_cons.1 h with rfl | hmem
    · simp only [List.length_cons]
      exact Nat.succ_le_succ (List.takeWhile_sublist _).length_le
    · exact le_trans (le_trans (ih hmem) (List.dropWhile_sublist _).length_le)
        (Nat.le_succ _)

theorem takeWhile_all (p : sstModel → Bool) (l : List sstModel)
    (h : ∀ x ∈ l, p x = true) : l.takeWhile p = l := by
  induction l with
  | nil => rfl
  | cons x xs ih =>
    rw [List.takeWhile_cons, if_pos (h x (List.mem_cons_self _ _))]
    rw [ih (fun y hy => h y (List.mem_cons_of_mem x hy))]

theorem dropWhile_all (p : sstModel → Bool) (l : List sstModel)
    (h : ∀ x ∈ l, p x = true) : l.dropWhile p = [] := by
  induction l with
  | nil => rfl
  | cons x xs ih =>
    rw [List.dropWhile_cons, if_pos (h x (List.mem_cons_self _ _))]
    exact ih (fun y hy => h y (List.mem_cons_of_mem x hy))

theorem sizeBuckets_single (s : sstModel) (rest : List sstModel)
    (hsim : ∀ a ∈ s :: rest, ∀ c ∈ s :: rest, sizeSimilar a.size c.size = true) :
    sizeBuckets (s :: rest) = [s :: rest] := by
  rw [sizeBuckets]
  rw [takeWhile_all _ rest (fun x hx =>
    hsim s (List.mem_cons_self _ _) x (List.mem_cons_of_mem s hx))]
  rw [dropWhile_all _ rest (fun x hx =>
    hsim s (List.mem_cons_self _ _) x (List.mem_cons_of_mem s hx))]
  simp [sizeBuckets]

theorem twcs_collapsed_small (minT maxT : Nat) (bucket : List sstModel)
    (h : bucket.length < minT) :
    twcs_older_window_candidates true minT maxT bucket = [] := by
  simp only [twcs_older_window_candidates, if_true]
  unfold size_tiered_get_sstables most_interesting_bucket
  cases hf : (sizeBuckets (sortBySize bucket)).find?
      (fun bkt => decide (minT ≤ bkt.length)) with
  | none => rfl
  | some bkt =>
    exfalso
    have hp := List.find?_some hf
    simp only [decide_eq_true_eq] at hp
    have hm := List.mem_of_find?_eq_some hf
    have hlen := sizeBuckets_mem_length _ bkt hm
    rw [sortBySize_length] at hlen
    omega

theorem twcs_collapsed_similar (minT maxT : Nat) (bucket : List sstModel)
    (hsim : ∀ a ∈ bucket, ∀ c ∈ bucket, sizeSimilar a.size c.size = true)
    (h1 : 1 ≤ minT) (h2 : minT ≤ bucket.length) (h3 : bucket.length ≤ maxT) :
    List.Perm (twcs_older_window_candidates true minT maxT bucket) bucket := by
  simp only [twcs_older_window_candidates, if_true]
  unfold size_tiered_get_sstables most_interesting_bucket
  cases hsort : sortBySize bucket with
  | nil =>
    exfalso
    have := sortBySize_length bucket
    rw [hsort] at this
    simp at this
    omega
  | cons s rest =>
    have hmem : ∀ x ∈ s :: rest, x ∈ bucket := by
      intro x hx
      exact (sortBySize_perm bucket).mem_iff.1 (by rw [hsort]; exact hx)
    have hsim2 : ∀ a ∈ s :: rest, ∀ c ∈ s :: rest, sizeSimilar a.size c.size = true :=
      fun a ha c hc => hsim a (hmem a ha) c (hmem c hc)
    have hlen : (s :: rest).length = bucket.length := by
      rw [← hsort, sortBySize_length]
    rw [sizeBuckets_single s rest hsim2]
    rw [List.find?_cons_of_pos _ (by simp only [decide_eq_true_eq]; omega)]
    show List.Perm (List.take maxT (s :: rest)) bucket
    rw [List.take_of_length_le (by omega)]
    rw [← hsort]
    exact sortBySize_perm bucket

/-- C6: an older time window that has been collapsed to exactly one
sstable yields no window-merge candidates; from then on the window is in
size-tiered mode only - it stays ineligible while it holds fewer than
min_threshold sstables and becomes eligible again exactly when it has
accumulated at least min_threshold similar-sized sstables, in which case
selection returns those sstables (capped at max_threshold); an
uncollapsed older window is merged whole once it has two sstables. -/
theorem twcs_collapsed_window_stcs (minT maxT : Nat) (s : sstModel)
    (bucket : List sstModel) :
    (2 ≤ bucket.length → twcs_older_window_candidates false minT maxT bucket
        = bucket.take maxT) ∧
    (2 ≤ minT → twcs_older_window_candidates true minT maxT [s] = []) ∧
    (bucket.length < minT → twcs_older_window_candidates true minT maxT bucket = []) ∧
    ((∀ a ∈ bucket, ∀ c ∈ bucket, sizeSimilar a.size c.size = true) →
      1 ≤ minT → minT ≤ bucket.length → bucket.length ≤ maxT →
      List.Perm (twcs_older_window_candidates true minT maxT bucket) bucket) := by
  refine ⟨?_, ?_, twcs_collapsed_small minT maxT bucket,
    twcs_collapsed_similar minT maxT bucket⟩
  · intro h
    simp [twcs_older_window_candidates, h]
  · intro h
    exact twcs_collapsed_small minT maxT [s] (by simp; omega)

/-- Witness for `twcs_collapsed_window_stcs`: a collapsed single-sstable
window and a collapsed window with two, then four, equal-sized
sstables. -/
theorem twcs_collapsed_window_stcs_witness :
    twcs_older_window_candidates true 4 32 [⟨9, 7⟩] = [] ∧
    twcs_older_window_candidates true 4 32 [⟨1, 2⟩, ⟨2, 2⟩] = [] ∧
    List.Perm (twcs_older_window_candidates true 4 32 [⟨1, 2⟩, ⟨2, 2⟩, ⟨3, 2⟩, ⟨4, 2⟩])
      [⟨1, 2⟩, ⟨2, 2⟩, ⟨3, 2⟩, ⟨4, 2⟩] ∧
    twcs_older_window_candidates false 4 32 [⟨1, 2⟩, ⟨2, 2⟩]
        = List.take 32 [⟨1, 2⟩, ⟨2, 2⟩] :=
  ⟨(twcs_collapsed_window_stcs 4 32 ⟨9, 7⟩ []).2.1 (by decide),
   (twcs_collapsed_window_stcs 4 32 ⟨9, 7⟩ [⟨1, 2⟩, ⟨2, 2⟩]).2.2.1 (by decide),
   (twcs_collapsed_window_stcs 4 32 ⟨9, 7⟩ [⟨1, 2⟩, ⟨2, 2⟩, ⟨3, 2⟩, ⟨4, 2⟩]).2.2.2
     (by decide) (by decide) (by decide) (by decide),
   (twcs_collapsed_window_stcs 4 32 ⟨9, 7⟩ [⟨1, 2⟩, ⟨2, 2⟩]).1 (by decide)⟩

/-- C1: for a schema with gc_grace_seconds = 0 (timeout mode, so the
oracle's gc_before equals the query time), compacting sstable A holding a
live row for partition alpha (key 0) written at timestamp 1 and a row for
beta (key 1), together with sstable B holding a partition tombstone for
alpha with timestamp 2 and deletion time T, at a query time strictly
after T, produces output with no alpha partition at all, while beta -
not covered by the tombstone - is preserved unchanged. -/
theorem tombstone_purge_scenario (T qt tsB : Int)
    (h1 : tpMin ≤ T) (h2 : T < qt) (h3 : qt ≤ tpMax) :
    compact_sstables
        [[(0, ⟨[1], none⟩), (1, ⟨[tsB], none⟩)], [(0, ⟨[], some (2, T)⟩)]]
        (get_gc_before_for_key ⟨gcMode.timeout, 0, 0⟩ none 0 qt)
      = [(1, ⟨[tsB], none⟩)] := by
  show compact_sstables
      [[(0, ⟨[1], none⟩), (1, ⟨[tsB], none⟩)], [(0, ⟨[], some (2, T)⟩)]]
      (saturating_subtract qt 0)
    = [(1, ⟨[tsB], none⟩)]
  have hgc : saturating_subtract qt 0 = qt := by
    rw [saturating_subtract, sub_zero, min_eq_right h3, max_eq_right (by omega)]
  rw [hgc]
  have hkeys : allKeys [[(0, ⟨[1], none⟩), (1, ⟨[tsB], none⟩)], [(0, ⟨[], some (2, T)⟩)]]
      = [0, 1] := rfl
  rw [compact_sstables, hkeys]
  have hm0 : mergePartitions
      [[(0, ⟨[1], none⟩), (1, ⟨[tsB], none⟩)], [(0, ⟨[], some (2, T)⟩)]] 0
      = ⟨[1], some (2, T)⟩ := rfl
  have hm1 : mergePartitions
      [[(0, ⟨[1], none⟩), (1, ⟨[tsB], none⟩)], [(0, ⟨[], some (2, T)⟩)]] 1
      = ⟨[tsB], none⟩ := rfl
  have hp0 : purgePartition qt ⟨[1], some (2, T)⟩ = ⟨[], none⟩ := by
    show (⟨List.filter (fun c => decide (2 < c)) [1],
        if T ≤ qt then none else some (2, T)⟩ : partitionData) = ⟨[], none⟩
    rw [if_pos (le_of_lt h2)]
    rfl
  have hp1 : purgePartition qt ⟨[tsB], none⟩ = ⟨[tsB], none⟩ := rfl
  simp only [List.filterMap_cons, List.filterMap_nil, hm0, hm1, hp0, hp1]
  simp

/-- Witness for `tombstone_purge_scenario`: deletion time 5, query time
10, beta written at timestamp 3. -/
theorem tombstone_purge_scenario_witness :
    compact_sstables
        [[(0, ⟨[1], none⟩), (1, ⟨[3], none⟩)], [(0, ⟨[], some (2, 5)⟩)]]
        (get_gc_before_for_key ⟨gcMode.timeout, 0, 0⟩ none 0 10)
      = [(1, ⟨[3], none⟩)] :=
  tombstone_purge_scenario 5 10 3 (by decide) (by decide) (by decide)

theorem placeFrag_join_perm (x : Int) (st : List (List Int)) :
    List.Perm (placeFrag x st).flatten (x :: st.flatten) := by
  induction st with
  | nil => simp [placeFrag]
  | cons s rest ih =>
    simp only [placeFrag]
    by_cases h : canAppend x s
    · rw [if_pos h]
      simp
    · rw [if_neg h]
      simp only [List.flatten_cons]
      exact (List.Perm.append_left s ih).trans List.perm_middle

theorem segregateRev_join_perm (l : List Int) :
    List.Perm (segregateRev l).flatten l := by
  suffices h : ∀ st, List.Perm
      (l.foldl (fun a x => placeFrag x a) st).flatten (st.flatten ++ l) by
    simpa [segregateRev] using h []
  induction l with
  | nil => intro st; simp
  | cons x xs ih =>
    intro st
    simp only [List.foldl_cons]
    refine (ih (placeFrag x st)).trans ?_
    refine (List.Perm.append_right xs (placeFrag_join_perm x st)).trans ?_
    exact List.perm_middle.symm

theorem map_reverse_flatten_perm (ss : List (List Int)) :
    List.Perm (ss.map List.reverse).flatten ss.flatten := by
  induction ss with
  | nil => simp
  | cons s rest ih =>
    simp only [List.map_cons, List.flatten_cons]
    exact List.Perm.append (List.reverse_perm s) ih

theorem segregate_join_perm (l : List Int) :
    List.Perm (segregate l).flatten l :=
  (map_reverse_flatten_perm (segregateRev l)).trans (segregateRev_join_perm l)

theorem placeFrag_pairwise (x : Int) (st : List (List Int))
    (h : ∀ s ∈ st, List.Pairwise (fun a c => c < a) s) :
    ∀ s ∈ placeFrag x st, List.Pairwise (fun a c => c < a) s := by
  induction st with
  | nil =>
    intro s hs
    simp only [placeFrag, List.mem_singleton] at hs
    subst hs
    simp
  | cons s0 rest ih =>
    intro s hs
    simp only [placeFrag] at hs
    by_cases hc : canAppend x s0
    · rw [if_pos hc] at hs
      rcases List.mem_cons.1 hs with rfl | hrest
      · have h0 := h s0 (List.mem_cons_self _ _)
        cases s0 with
        | nil => simp
        | cons h0' t =>
          rw [List.pairwise_cons]
          refine ⟨?_, h0⟩
          intro c hc2
          rcases List.mem_cons.1 hc2 with rfl | ht
          · simpa [canAppend] using hc
          · have hlt : c < h0' := (List.pairwise_cons.1 h0).1 c ht
            have hx : h0' < x := by simpa [canAppend] using hc
            omega
      · exact h s (List.mem_cons_of_mem _ hrest)
    · rw [if_neg hc] at hs
      rcases List.mem_cons.1 hs with rfl | hrest
      · exact h s (List.mem_cons_self _ _)
      · exact ih (fun t ht => h t (List.mem_cons_of_mem _ ht)) s hrest

theorem segregateRev_pairwise (l : List Int) :
    ∀ s ∈ segregateRev l, List.Pairwise (fun a c => c < a) s := by
  suffices h : ∀ st, (∀ s ∈ st, List.Pairwise (fun a c => c < a) s) →
      ∀ s ∈ l.foldl (fun a x => placeFrag x a) st,
        List.Pairwise (fun a c => c < a) s by
    exact h [] (by intro s hs; cases hs)
  induction l with
  | nil => intro st hst; exact hst
  | cons x xs ih =>
    intro st hst
    simp only [List.foldl_cons]
    exact ih (placeFrag x st) (placeFrag_pairwise x st hst)

theorem segregate_streams_strict (l : List Int) :
    ∀ s ∈ segregate l, List.Pairwise (· < ·) s := by
  intro s hs
  simp only [segregate, List.mem_map] at hs
  obtain ⟨s', hs', rfl⟩ := hs
  rw [List.pairwise_reverse]
  exact segregateRev_pairwise l s' hs'

theorem combineAll_perm (ls : List (List Int)) :
    List.Perm (combineAll ls) ls.flatten := by
  suffices h : ∀ acc, List.Perm
      (ls.foldl (fun a s => List.merge a s (fun a b => decide (a ≤ b))) acc)
      (acc ++ ls.flatten) by
    simpa [combineAll] using h []
  induction ls with
  | nil => intro acc; simp
  | cons s rest ih =>
    intro acc
    simp only [List.foldl_cons, List.flatten_cons]
    refine (ih (List.merge acc s (fun a b => decide (a ≤ b)))).trans ?_
    refine (List.Perm.append_right _ (List.merge_perm_append _)).trans ?_
    rw [List.append_assoc]

theorem foldl_merge_sorted (ls : List (List Int)) :
    ∀ acc, List.Pairwise (fun a b : Int => a ≤ b) acc →
      (∀ s ∈ ls, List.Pairwise (fun a b : Int => a ≤ b) s) →
      List.Pairwise (fun a b : Int => a ≤ b)
        (ls.foldl (fun a s => List.merge a s (fun a b => decide (a ≤ b))) acc) := by
  induction ls with
  | nil => intro acc hacc _; exact hacc
  | cons s rest ih =>
    intro acc hacc hall
    simp only [List.foldl_cons]
    refine ih _ ?_ (fun t ht => hall t (List.mem_cons_of_mem _ ht))
    have hm := @List.sorted_merge Int (fun a b => decide (a ≤ b))
      (by intro a b c hab hbc; simp only [decide_eq_true_eq] at *; omega)
      (by intro a b; simpa [Bool.or_eq_true, decide_eq_true_eq] using le_total a b)
      acc s
      (by simpa using hacc)
      (by simpa using hall s (List.mem_cons_self _ _))
    simpa using hm

theorem combineAll_sorted (ls : List (List Int))
    (h : ∀ s ∈ ls, List.Pairwise (fun a b : Int => a ≤ b) s) :
    List.Pairwise (fun a b : Int => a ≤ b) (combineAll ls) :=
  foldl_merge_sorted ls [] (by simp) h

/-- C3: scrub in segregate mode loses no data: the multiset of fragments
across the output streams is exactly the input (each fragment lands in
exactly one stream), every individual output stream is strictly
ascending, and the combining reader over all output streams yields a
valid (weakly ascending) ordering of exactly the input content. -/
theorem scrub_segregate_preserves (l : List Int) :
    List.Perm (segregate l).flatten l ∧
    (∀ s ∈ segregate l, List.Pairwise (· < ·) s) ∧
    List.Perm (combineAll (segregate l)) l ∧
    List.Pairwise (fun a b : Int => a ≤ b) (combineAll (segregate l)) := by
  refine ⟨segregate_join_perm l, segregate_streams_strict l,
    (combineAll_perm (segregate l)).trans (segregate_join_perm l), ?_⟩
  refine combineAll_sorted (segregate l) ?_
  intro s hs
  exact (segregate_streams_strict l s hs).imp (fun hlt => le_of_lt hlt)
